import Mathlib

/-!
# typelist-utils: a shallow embedding of `tl::` type-sequence operations

Source: `include/typelist_utils/utils.hpp` and `include/typelist_utils/traits.hpp`.

A `std::tuple<Ts...>` used as a type sequence is embedded as a `List α`, where `α`
stands for the universe of element types and `DecidableEq α` plays the role of
`std::is_same_v`.  A template instantiation that does not compile (a failed
`requires` clause, a `std::tuple_element_t` out of range, a missing member `type`)
is embedded as `none`.  Where a claim speaks of arguments that are not tuples, the
argument is a `TypeArg` and `requires_tuple` is the `tl::concepts::tuple` constraint
of the template head.

`tl::split` and `tl::swap_elements` compute their result types as the deduced return
type of functions that build tuple values (`std::tuple<...>{}`, `std::tuple_cat`), so
they also depend on whether the element types can be value-initialised and moved.
`ElementTraits` carries these two properties of the element types.

`std::size_t` values are natural numbers below `SIZE_MOD`; their sums and
differences wrap modulo `SIZE_MOD`, as unsigned arithmetic does.  The size of a tuple
and of a parameter pack is such a value, which the theorems on index arithmetic state
as the hypothesis `length < SIZE_MOD`.
-/

namespace tl

variable {α β : Type}

/-! ## std::size_t arithmetic -/

/-- One more than the largest `std::size_t` value (64-bit `std::size_t`). -/
def SIZE_MOD : Nat := 2 ^ 64

/-- Unsigned addition `a + b` on `std::size_t`. -/
def size_t_add (a b : Nat) : Nat := (a + b) % SIZE_MOD

/-- Unsigned subtraction `a - b` on `std::size_t`: wraps around when `a < b`. -/
def size_t_sub (a b : Nat) : Nat := (a + SIZE_MOD - b % SIZE_MOD) % SIZE_MOD

/-! ## Standard-library pieces used by the header -/

/-- The size `std::tuple_size_v<T>` of a tuple. -/
def tuple_size_v (T : List α) : Nat := T.length

/-- The element type `std::tuple_element_t<i, T>`; ill-formed (`none`) when `i` is out
of range. -/
def tuple_element_t (i : Nat) (T : List α) : Option α := T[i]?

/-- The index pack of `std::make_integer_sequence<std::size_t, n>`: `0, 1, ..., n-1`. -/
def make_integer_sequence (n : Nat) : List Nat := List.range n

/-- Pack expansion `std::tuple<f(indexes)...>`: one element per index, in order;
ill-formed as soon as one element is. -/
def pack_expansion {ι : Type} (f : ι → Option α) : List ι → Option (List α)
  | [] => some []
  | i :: rest =>
    match f i, pack_expansion f rest with
    | some a, some as => some (a :: as)
    | _, _ => none

/-- Properties of an element type `E` that matter when a tuple value is built:
`std::is_default_constructible_v<E>` (false for a reference such as `int&`, for `void`,
for a type with a deleted default constructor) and `std::is_move_constructible_v<E>`
(false for a type with deleted copy and move constructors). -/
class ElementTraits (α : Type) where
  is_default_constructible : α → Bool
  is_move_constructible : α → Bool

/-- Expression `std::tuple<Ts...>{}`: value-initialisation of a tuple, well-formed when
every element type is default-constructible; its type is `std::tuple<Ts...>`. -/
def value_initialize [ElementTraits α] (Ts : List α) : Option (List α) :=
  if Ts.all ElementTraits.is_default_constructible then some Ts else none

/-- Call `std::tuple_cat(t1, ..., tn)` on tuple temporaries: the result type is the
tuple of all their elements in order, and every element is move-constructed into the
result, so the call is well-formed when every element type is move-constructible. -/
def tuple_cat [ElementTraits α] (tuples : List (List α)) : Option (List α) :=
  if tuples.flatten.all ElementTraits.is_move_constructible then some tuples.flatten
  else none

/-- Sample element types for concrete instantiations: three ordinary value types, the
reference type `int&`, a class with a deleted default constructor, and a class with
deleted copy and move constructors. -/
inductive SampleType where
  | E1
  | E2
  | E3
  | int_ref
  | NoDefault
  | NoMove
  deriving DecidableEq

/-- The two properties for the sample element types; `int&` can be moved (copied as a
reference) but not value-initialised. -/
instance : ElementTraits SampleType where
  is_default_constructible
    | .int_ref => false
    | .NoDefault => false
    | _ => true
  is_move_constructible
    | .NoMove => false
    | _ => true

/-- Concept `tl::concepts::unary_type_predicate<P, T>`: `P<T>` exposes a member `type`.
A template `P` is embedded as a function giving `P<T>::type` when it exists. -/
def unary_type_predicate (P : α → Option β) (T : α) : Bool := (P T).isSome

/-- Concept `tl::concepts::valid_swap_indices<T, first, second>` for a tuple `T`:
`first < second` and `second < std::tuple_size_v<T>`. -/
def valid_swap_indices (T : List α) (first second : Nat) : Bool :=
  decide (first < second) && decide (second < tuple_size_v T)

/-! ## utils.hpp -/

/-- Value `tl::start_with<T, E>::value`: the primary template gives `false`, the
specialisation for a non-empty tuple compares the head with `E`. -/
def start_with [DecidableEq α] : List α → α → Bool
  | [], _ => false
  | T :: _, E => decide (T = E)

/-- Function `tl::count<T, E>::impl`: the right fold
`((is_same_v<E, tuple_element_t<indexes, T>> ? 1 : 0) + ... + 0)`.
The sum is an `int` constant expression whose summands are 0 or 1, one per index, so
it never exceeds the number of indexes and is embedded as a natural number. -/
def count_impl [DecidableEq α] (T : List α) (E : α) : List Nat → Option Nat
  | [] => some 0
  | i :: rest =>
    match tuple_element_t i T, count_impl T E rest with
    | some e, some n => some ((if E = e then 1 else 0) + n)
    | _, _ => none

/-- Value `tl::count<T, E>::value` (`count_v`): `impl` over the indexes
`0 .. tuple_size_v<T> - 1`. -/
def count [DecidableEq α] (T : List α) (E : α) : Option Nat :=
  count_impl T E (make_integer_sequence (tuple_size_v T))

/-- Value `tl::contains_v<T, E>`, that is `0 < count_v<T, E>`. -/
def contains [DecidableEq α] (T : List α) (E : α) : Option Bool :=
  (count T E).map (fun c => decide (0 < c))

/-- The fold `(static_cast<std::size_t>(contains_v<T, Es>) + ... + 0)` of
`tl::contains_all`. -/
def contains_all_sum [DecidableEq α] (T : List α) : List α → Option Nat
  | [] => some 0
  | E :: rest =>
    match contains T E, contains_all_sum T rest with
    | some b, some n => some (size_t_add (if b then 1 else 0) n)
    | _, _ => none

/-- Value `tl::contains_all<T, Es...>::value` (`contains_all_v`): the fold compared with
`sizeof...(Es)`. -/
def contains_all [DecidableEq α] (T : List α) (Es : List α) : Option Bool :=
  (contains_all_sum T Es).map (fun s => decide (s = Es.length))

/-- Type `tl::concat<std::tuple<Ts...>, std::tuple<Us...>>::type` (`concat_t`):
`std::tuple<Ts..., Us...>`. -/
def concat (T U : List α) : List α := T ++ U

/-- Function `tl::split<T, split_index>::impl<start>(index_sequence<indexes...>)`:
`return std::tuple<std::tuple_element_t<start + indexes, T>...>{};`.  The return type
is deduced, so the value-initialisation in the body must be well-formed for the
function to have a type at all. -/
def split_impl [ElementTraits α] (T : List α) (start : Nat) (indexes : List Nat) :
    Option (List α) :=
  match pack_expansion (fun i => tuple_element_t (size_t_add start i) T) indexes with
  | some Ts => value_initialize Ts
  | none => none

/-- Class `tl::split<T, split_index>`, guarded by
`requires(split_index <= std::tuple_size_v<T>)`: its member types `l`, the type of
`impl<0>` over `split_index` indexes, and `r`, the type of `impl<split_index>` over
`tuple_size_v<T> - split_index` indexes.  Instantiating the class instantiates both
member declarations. -/
def split [ElementTraits α] (T : List α) (split_index : Nat) : Option (List α × List α) :=
  if split_index ≤ tuple_size_v T then
    match split_impl T 0 (make_integer_sequence split_index),
          split_impl T split_index
            (make_integer_sequence (size_t_sub (tuple_size_v T) split_index)) with
    | some l, some r => some (l, r)
    | _, _ => none
  else none

/-- Alias `tl::split_l_t<T, split_index>`, that is `split<T, split_index>::l`. -/
def split_l_t [ElementTraits α] (T : List α) (split_index : Nat) : Option (List α) :=
  (split T split_index).map Prod.fst

/-- Alias `tl::split_r_t<T, split_index>`, that is `split<T, split_index>::r`. -/
def split_r_t [ElementTraits α] (T : List α) (split_index : Nat) : Option (List α) :=
  (split T split_index).map Prod.snd

/-- Type `tl::for_each<T, F>::type` (`for_each_t`).  The empty tuple maps to the empty
tuple.  For `std::tuple<T, Ts...>` the specialisation requires
`unary_type_predicate<F, T>` of the head and produces
`concat_t<std::tuple<F<T>::type>, std::tuple<F<Ts>::type...>>`. -/
def for_each : List α → (α → Option β) → Option (List β)
  | [], _ => some []
  | T :: Ts, F =>
    if unary_type_predicate F T then
      match F T, pack_expansion F Ts with
      | some h, some rest => some (concat [h] rest)
      | _, _ => none
    else none

/-- Function `tl::swap_elements<T, first, second>::swap_helper`: the `std::tuple_cat` of
five value-initialised tuples: the run before `first`, the element at `second`, the
run strictly between the two indices, the element at `first`, and the run after
`second`.  The return type is deduced from that call. -/
def swap_helper [ElementTraits α] (T : List α) (first second : Nat)
    (start_to_first_indexes first_to_second_indexes second_to_end_indexes : List Nat) :
    Option (List α) :=
  match (pack_expansion (fun i => tuple_element_t i T) start_to_first_indexes).bind
          value_initialize,
        (tuple_element_t second T).bind (fun b => value_initialize [b]),
        (pack_expansion (fun i => tuple_element_t (size_t_add (size_t_add i first) 1) T)
          first_to_second_indexes).bind value_initialize,
        (tuple_element_t first T).bind (fun a => value_initialize [a]),
        (pack_expansion (fun i => tuple_element_t (size_t_add (size_t_add i second) 1) T)
          second_to_end_indexes).bind value_initialize with
  | some r0, some b, some r1, some a, some r2 => tuple_cat [r0, b, r1, a, r2]
  | _, _, _, _, _ => none

/-- Function `tl::swap_elements<T, first, second>::swap_helper_boilerplate`: builds the
three index sequences and calls `swap_helper`. -/
def swap_helper_boilerplate [ElementTraits α] (T : List α) (first second : Nat) :
    Option (List α) :=
  let start_to_first := make_integer_sequence first
  let first_to_second := make_integer_sequence (size_t_sub second (size_t_add first 1))
  let second_to_end :=
    make_integer_sequence (size_t_sub (tuple_size_v T) (size_t_add second 1))
  swap_helper T first second start_to_first first_to_second second_to_end

/-- Type `tl::swap_elements<T, first, second>::type` (`swap_elements_t`), guarded by
`requires tl::concepts::valid_swap_indices<T, first, second>`: the deduced return type
of `swap_helper_boilerplate`. -/
def swap_elements [ElementTraits α] (T : List α) (first second : Nat) : Option (List α) :=
  if valid_swap_indices T first second then swap_helper_boilerplate T first second
  else none

/-! ## Type arguments that need not be tuples -/

/-- A type offered as the argument `T` of a template: either a `std::tuple<Ts...>` or a
type of any other shape. -/
inductive TypeArg (α : Type) where
  | tuple (Ts : List α)
  | other (t : α)

/-- Trait `tl::traits::is_tuple_v<T>`: the primary template is `std::false_type`, the
specialisation for `std::tuple<Ts...>` is `std::true_type`. -/
def traits.is_tuple_v : TypeArg α → Bool
  | .tuple _ => true
  | .other _ => false

/-- Concept `tl::concepts::tuple<T>`, that is `tl::traits::is_tuple_v<T>`. -/
def concepts.tuple (T : TypeArg α) : Bool := traits.is_tuple_v T

/-- Concept `tl::concepts::valid_swap_indices<T, first, second>` on an arbitrary type
argument: the nested requirements `tl::concepts::tuple<T>`, `first < second` and
`second < std::tuple_size_v<T>`, checked in this order. -/
def concepts.valid_swap_indices (T : TypeArg α) (first second : Nat) : Bool :=
  concepts.tuple T && (decide (first < second) &&
    match T with
    | .tuple Ts => decide (second < tuple_size_v Ts)
    | .other _ => false)

/-- Template head `template <tl::concepts::tuple T, ...>`: the template `body` is
instantiated with the elements of `T` when `T` satisfies the concept, and the
instantiation is rejected otherwise. -/
def requires_tuple {γ : Type} (T : TypeArg α) (body : List α → Option γ) : Option γ :=
  if concepts.tuple T then
    match T with
    | .tuple Ts => body Ts
    | .other _ => none
  else none

/-! ## Auxiliary lemmas -/

theorem size_t_add_eq {a b : Nat} (h : a + b < SIZE_MOD) : size_t_add a b = a + b := by
  unfold size_t_add
  exact Nat.mod_eq_of_lt h

theorem size_t_sub_eq {a b : Nat} (hb : b ≤ a) (ha : a < SIZE_MOD) :
    size_t_sub a b = a - b := by
  unfold size_t_sub
  have hb' : b % SIZE_MOD = b := Nat.mod_eq_of_lt (by omega)
  have hsum : a + SIZE_MOD - b = (a - b) + SIZE_MOD := by omega
  rw [hb', hsum, Nat.add_mod_right]
  exact Nat.mod_eq_of_lt (by omega)

/-- A pack expansion succeeds with `r` exactly when every element is well-formed and
`r` lists them in order. -/
theorem pack_expansion_eq_some_iff {ι : Type} (f : ι → Option α) (l : List ι) (r : List α) :
    pack_expansion f l = some r ↔ l.map f = r.map some := by
  induction l generalizing r with
  | nil => cases r <;> simp [pack_expansion]
  | cons i rest ih =>
    cases hf : f i <;> cases hp : pack_expansion f rest <;> cases r <;>
      simp [pack_expansion, hf, hp]
    all_goals
      intro _
      rw [← ih, hp]
      simp

theorem pack_expansion_length {ι : Type} {f : ι → Option α} {l : List ι} {r : List α}
    (h : pack_expansion f l = some r) : r.length = l.length := by
  have hm := congrArg List.length ((pack_expansion_eq_some_iff f l r).1 h)
  simpa using hm.symm

theorem pack_expansion_getElem? {ι : Type} {f : ι → Option α} {l : List ι} {r : List α}
    (h : pack_expansion f l = some r) (i : Nat) : r[i]? = l[i]?.bind f := by
  have hm := congrArg (fun x => x[i]?) ((pack_expansion_eq_some_iff f l r).1 h)
  simp only [List.getElem?_map] at hm
  cases hl : l[i]? <;> cases hr : r[i]? <;> simp_all

theorem pack_expansion_isSome {ι : Type} (f : ι → Option α) (l : List ι)
    (h : ∀ x ∈ l, (f x).isSome = true) : ∃ r, pack_expansion f l = some r := by
  induction l with
  | nil => exact ⟨[], rfl⟩
  | cons i rest ih =>
    obtain ⟨r, hr⟩ := ih (fun x hx => h x (List.mem_cons_of_mem _ hx))
    obtain ⟨a, ha⟩ := Option.isSome_iff_exists.1 (h i (List.mem_cons_self _ _))
    exact ⟨a :: r, by simp [pack_expansion, ha, hr]⟩

theorem map_getElem?_range (T : List α) (start n : Nat) (h : start + n ≤ T.length) :
    (List.range n).map (fun i => T[start + i]?) = ((T.drop start).take n).map some := by
  apply List.ext_getElem?
  intro j
  simp [List.getElem?_map, List.getElem?_range, List.getElem?_take, List.getElem?_drop]
  by_cases hj : j < n
  · have hj2 : start + j < T.length := by omega
    simp [hj, List.getElem?_range, List.getElem?_eq_getElem hj2]
  · simp [hj, List.getElem?_eq_none (l := List.range n) (by simpa using hj)]

/-- Expanding `tuple_element_t<g(i), T>` over the indexes `0..n-1`, where `g` is the
offset `start + i`, yields the run of `n` elements of `T` beginning at `start`. -/
theorem pack_expansion_run (T : List α) (g : Nat → Nat) (start n : Nat)
    (hg : ∀ i, i < n → g i = start + i) (h : start + n ≤ T.length) :
    pack_expansion (fun i => tuple_element_t (g i) T) (make_integer_sequence n)
      = some ((T.drop start).take n) := by
  rw [pack_expansion_eq_some_iff, ← map_getElem?_range T start n h]
  apply List.map_congr_left
  intro i hi
  have hi' : i < n := by simpa [make_integer_sequence] using hi
  simp [tuple_element_t, hg i hi']

theorem count_impl_eq [DecidableEq α] (T : List α) (E : α) (l : List Nat)
    (hl : ∀ i ∈ l, i < T.length) :
    count_impl T E l = some (l.filter (fun i => decide (T[i]? = some E))).length := by
  induction l with
  | nil => rfl
  | cons i rest ih =>
    have hi : i < T.length := hl i (List.mem_cons_self _ _)
    have hrest := ih (fun x hx => hl x (List.mem_cons_of_mem _ hx))
    have hget : T[i]? = some T[i] := List.getElem?_eq_getElem hi
    by_cases hE : E = T[i]
    · have hE' : T[i] = E := hE.symm
      simp [count_impl, tuple_element_t, hget, hrest, List.filter_cons, hE']
      omega
    · have hE' : ¬ T[i] = E := fun h => hE h.symm
      simp [count_impl, tuple_element_t, hget, hrest, List.filter_cons, hE, hE']

theorem count_eq [DecidableEq α] (S : List α) (E : α) :
    count S E
      = some ((List.range S.length).filter (fun i => decide (S[i]? = some E))).length := by
  unfold count make_integer_sequence tuple_size_v
  exact count_impl_eq S E _ (fun i hi => by simpa using hi)

theorem start_with_eq [DecidableEq α] (l : List α) (E : α) :
    start_with l E = decide (l[0]? = some E) := by
  cases l <;> simp [start_with]

theorem swap_runs_eq_set (S : List α) (i j : Nat) (a b : α) (hij : i < j)
    (hj : j < S.length) :
    S.take i ++ [b] ++ (S.drop (i + 1)).take (j - (i + 1)) ++ [a] ++ S.drop (j + 1)
      = (S.set i b).set j a := by
  apply List.ext_getElem?
  intro p
  simp only [List.append_assoc, List.getElem?_append, List.getElem?_set, List.getElem?_take,
    List.getElem?_drop, List.length_take, List.length_drop, List.length_set, List.length_cons,
    List.length_nil, List.length_append, List.getElem?_cons, List.singleton_append]
  have h1 : min i S.length = i := Nat.min_eq_left (by omega)
  have h2 : min (j - (i + 1)) (S.length - (i + 1)) = j - (i + 1) :=
    Nat.min_eq_left (by omega)
  simp only [h1, h2]
  split_ifs <;> first | rfl | omega | (congr 1; omega)

theorem contains_eq [DecidableEq α] (S : List α) (E : α) :
    contains S E = some (decide (E ∈ S)) := by
  unfold contains
  rw [count_eq]
  simp only [Option.map_some', Option.some.injEq, decide_eq_decide, List.length_pos,
    ne_eq, List.filter_eq_nil_iff, not_forall]
  constructor
  · rintro ⟨i, _, hi⟩
    exact List.getElem?_mem (by simpa using hi)
  · intro hE
    obtain ⟨i, hi, hEi⟩ := List.mem_iff_getElem.1 hE
    exact ⟨i, by simpa using hi, by simp [List.getElem?_eq_getElem hi, hEi]⟩

theorem contains_all_sum_eq [DecidableEq α] (S Es : List α) (hEs : Es.length < SIZE_MOD) :
    contains_all_sum S Es = some (Es.filter (fun E => decide (E ∈ S))).length := by
  induction Es with
  | nil => rfl
  | cons E rest ih =>
    have hrest : rest.length < SIZE_MOD := by
      simp only [List.length_cons] at hEs
      omega
    have hle : (rest.filter (fun E => decide (E ∈ S))).length ≤ rest.length :=
      List.length_filter_le _ _
    simp only [List.length_cons] at hEs
    by_cases hE : E ∈ S
    · simp only [contains_all_sum, contains_eq, ih hrest, hE, decide_True, if_true,
        List.filter_cons, List.length_cons]
      rw [size_t_add_eq (by omega)]
      congr 1
      omega
    · simp only [contains_all_sum, contains_eq, ih hrest, hE, decide_False,
        List.filter_cons]
      rw [size_t_add_eq (by simp only [Bool.false_eq_true, if_false]; omega)]
      simp

theorem contains_all_eq [DecidableEq α] (S Es : List α) (hEs : Es.length < SIZE_MOD) :
    contains_all S Es = some (decide (∀ E ∈ Es, E ∈ S)) := by
  unfold contains_all
  rw [contains_all_sum_eq S Es hEs]
  simp only [Option.map_some', Option.some.injEq, decide_eq_decide,
    List.filter_length_eq_length, decide_eq_true_eq]

/-- The head guard of `for_each` adds nothing to the expansion: the result is the
pack expansion of `F` over the whole tuple. -/
theorem for_each_eq_pack_expansion (S : List α) (F : α → Option β) :
    for_each S F = pack_expansion F S := by
  cases S with
  | nil => rfl
  | cons T Ts =>
    cases hT : F T <;> cases hp : pack_expansion F Ts <;>
      simp [for_each, pack_expansion, unary_type_predicate, concat, hT, hp]

theorem filter_range_length_eq_count [DecidableEq α] (S : List α) (E : α) :
    ((List.range S.length).filter (fun i => decide (S[i]? = some E))).length
      = S.count E := by
  induction S using List.reverseRecOn with
  | nil => rfl
  | append_singleton S x ih =>
    have hcongr : (List.range S.length).filter (fun i => decide ((S ++ [x])[i]? = some E))
        = (List.range S.length).filter (fun i => decide (S[i]? = some E)) := by
      apply List.filter_congr
      intro i hi
      have hi2 : i < S.length := by simpa using hi
      rw [List.getElem?_append_left hi2]
    rw [List.length_append, List.length_singleton, List.range_succ, List.filter_append,
      List.length_append, hcongr, ih, List.count_append]
    by_cases hx : x = E
    · simp [List.filter_cons, hx]
    · simp [List.filter_cons, hx, List.count_cons]

/-- The value of `count` is the number of occurrences of `E` in the tuple. -/
theorem count_eq_list_count [DecidableEq α] (S : List α) (E : α) :
    count S E = some (S.count E) := by
  rw [count_eq, filter_range_length_eq_count]

theorem pack_expansion_some_forall {ι : Type} {f : ι → Option α} {l : List ι} {r : List α}
    (h : pack_expansion f l = some r) : ∀ x ∈ l, (f x).isSome = true := by
  intro x hx
  have hm := (pack_expansion_eq_some_iff f l r).1 h
  have hfx : f x ∈ r.map some := hm ▸ List.mem_map_of_mem f hx
  obtain ⟨y, _, hy⟩ := List.mem_map.1 hfx
  simp [← hy]

theorem set_eq_self_of_getElem? (S : List α) (i : Nat) (a : α) (h : S[i]? = some a) :
    S.set i a = S := by
  apply List.ext_getElem?
  intro p
  by_cases hp : i = p
  · subst hp
    have hlt : i < S.length := (List.getElem?_eq_some_iff.1 h).1
    simp [List.getElem?_set, hlt, h]
  · simp [List.getElem?_set, hp]

/-- Every tuple is the run before `i`, its element at `i`, the run strictly between `i`
and `j`, its element at `j`, and the run after `j`. -/
theorem runs_eq_self (S : List α) (i j : Nat) (hi : i < S.length) (hij : i < j)
    (hj : j < S.length) :
    S.take i ++ [S[i]] ++ (S.drop (i + 1)).take (j - (i + 1)) ++ [S[j]] ++ S.drop (j + 1)
      = S := by
  rw [swap_runs_eq_set S i j S[j] S[i] hij hj,
    set_eq_self_of_getElem? S i S[i] (List.getElem?_eq_getElem hi),
    set_eq_self_of_getElem? S j S[j] (List.getElem?_eq_getElem hj)]

/-- On a tuple the concept on type arguments is the check that guards `swap_elements`. -/
theorem concepts_valid_swap_indices_tuple (S : List α) (first second : Nat) :
    concepts.valid_swap_indices (TypeArg.tuple S) first second
      = valid_swap_indices S first second := by
  simp [concepts.valid_swap_indices, concepts.tuple, traits.is_tuple_v, valid_swap_indices]

/-- Without a guard the unsigned difference really wraps: `0 - 1` is the largest
`std::size_t` value. -/
theorem size_t_sub_wraps : size_t_sub 0 1 = SIZE_MOD - 1 := by decide

/-! ## When the value-building templates are well-formed -/

theorem value_initialize_eq_some_iff [ElementTraits α] (Ts R : List α) :
    value_initialize Ts = some R ↔
      R = Ts ∧ ∀ x ∈ Ts, ElementTraits.is_default_constructible x = true := by
  unfold value_initialize
  by_cases h : Ts.all ElementTraits.is_default_constructible = true
  · rw [if_pos h]
    have h2 := List.all_eq_true.1 h
    constructor
    · intro hR
      exact ⟨(Option.some.inj hR).symm, h2⟩
    · rintro ⟨hR, _⟩
      rw [hR]
  · rw [if_neg h]
    constructor
    · intro hR
      exact Option.noConfusion hR
    · rintro ⟨_, h2⟩
      exact absurd (List.all_eq_true.2 h2) h

theorem value_initialize_eq_some [ElementTraits α] (Ts : List α)
    (h : ∀ x ∈ Ts, ElementTraits.is_default_constructible x = true) :
    value_initialize Ts = some Ts :=
  (value_initialize_eq_some_iff Ts Ts).2 ⟨rfl, h⟩

theorem tuple_cat_eq_some_iff [ElementTraits α] (tuples : List (List α)) (R : List α) :
    tuple_cat tuples = some R ↔
      R = tuples.flatten ∧
        ∀ x ∈ tuples.flatten, ElementTraits.is_move_constructible x = true := by
  unfold tuple_cat
  by_cases h : tuples.flatten.all ElementTraits.is_move_constructible = true
  · rw [if_pos h]
    have h2 := List.all_eq_true.1 h
    constructor
    · intro hR
      exact ⟨(Option.some.inj hR).symm, h2⟩
    · rintro ⟨hR, _⟩
      rw [hR]
  · rw [if_neg h]
    constructor
    · intro hR
      exact Option.noConfusion hR
    · rintro ⟨_, h2⟩
      exact absurd (List.all_eq_true.2 h2) h

/-- On in-range indexes `split::impl` is the value-initialisation of the run of `n`
elements of `T` beginning at `start`. -/
theorem split_impl_run [ElementTraits α] (T : List α) (start n : Nat)
    (hT : T.length < SIZE_MOD) (h : start + n ≤ T.length) :
    split_impl T start (make_integer_sequence n)
      = value_initialize ((T.drop start).take n) := by
  unfold split_impl
  rw [pack_expansion_run T (fun i => size_t_add start i) start n
    (fun i hi => size_t_add_eq (by omega)) h]

/-- Within its guard `split` is the pair of the value-initialised runs `[0, k)` and
`[k, length S)`. -/
theorem split_eq [ElementTraits α] (S : List α) (k : Nat) (hS : S.length < SIZE_MOD)
    (hk : k ≤ S.length) :
    split S k =
      match value_initialize (S.take k), value_initialize (S.drop k) with
      | some l, some r => some (l, r)
      | _, _ => none := by
  have hn : size_t_sub (tuple_size_v S) k = S.length - k := size_t_sub_eq hk hS
  unfold split
  rw [if_pos (by simpa [tuple_size_v] using hk), hn,
    split_impl_run S 0 k hS (by omega), split_impl_run S k (S.length - k) hS (by omega),
    List.drop_zero, List.take_of_length_le (l := S.drop k) (by simp)]

theorem split_eq_none_of_gt [ElementTraits α] (S : List α) (k : Nat) (hk : S.length < k) :
    split S k = none := by
  unfold split
  rw [if_neg (by simp only [tuple_size_v]; omega)]

/-- With default-constructible elements `split S k` is the pair of the runs `[0, k)`
and `[k, length S)` of `S`. -/
theorem split_eq_take_drop [ElementTraits α] (S : List α) (k : Nat)
    (hS : S.length < SIZE_MOD) (hk : k ≤ S.length)
    (hdc : ∀ x ∈ S, ElementTraits.is_default_constructible x = true) :
    split S k = some (S.take k, S.drop k) := by
  rw [split_eq S k hS hk,
    value_initialize_eq_some _ (fun x hx => hdc x (List.mem_of_mem_take hx)),
    value_initialize_eq_some _ (fun x hx => hdc x (List.mem_of_mem_drop hx))]

/-- The instantiation `split<S, k>` is well-formed exactly when `k ≤ length S` and
every element of `S` is default-constructible. -/
theorem split_isSome_iff [ElementTraits α] (S : List α) (k : Nat)
    (hS : S.length < SIZE_MOD) :
    (∃ lr, split S k = some lr) ↔
      k ≤ S.length ∧ ∀ x ∈ S, ElementTraits.is_default_constructible x = true := by
  constructor
  · rintro ⟨lr, hlr⟩
    by_cases hk : k ≤ S.length
    · refine ⟨hk, ?_⟩
      rw [split_eq S k hS hk] at hlr
      cases hl : value_initialize (S.take k) with
      | none => simp [hl] at hlr
      | some l =>
        cases hr : value_initialize (S.drop k) with
        | none => simp [hl, hr] at hlr
        | some r =>
          have h1 := ((value_initialize_eq_some_iff _ _).1 hl).2
          have h2 := ((value_initialize_eq_some_iff _ _).1 hr).2
          intro x hx
          rw [← List.take_append_drop k S, List.mem_append] at hx
          rcases hx with hx | hx
          · exact h1 x hx
          · exact h2 x hx
    · rw [split_eq_none_of_gt S k (by omega)] at hlr
      exact Option.noConfusion hlr
  · rintro ⟨hk, hdc⟩
    exact ⟨_, split_eq_take_drop S k hS hk hdc⟩

theorem swap_elements_eq_none_of_invalid [ElementTraits α] (S : List α)
    (first second : Nat) (h : ¬ (first < second ∧ second < S.length)) :
    swap_elements S first second = none := by
  have hv : valid_swap_indices S first second = false := by
    simp only [valid_swap_indices, tuple_size_v, Bool.and_eq_false_iff,
      decide_eq_false_iff_not]
    tauto
  simp [swap_elements, hv]

/-- The three pack expansions of `swap_helper_boilerplate` read in-range positions only:
they are the runs `[0, first)`, `(first, second)` and `(second, length S)` of `S`. -/
theorem swap_lookups [ElementTraits α] (S : List α) (first second : Nat)
    (hS : S.length < SIZE_MOD) (h1 : first < second) (h2 : second < S.length) :
    pack_expansion (fun i => tuple_element_t i S) (make_integer_sequence first)
        = some (S.take first) ∧
      pack_expansion (fun i => tuple_element_t (size_t_add (size_t_add i first) 1) S)
          (make_integer_sequence (size_t_sub second (size_t_add first 1)))
        = some ((S.drop (first + 1)).take (second - (first + 1))) ∧
      pack_expansion (fun i => tuple_element_t (size_t_add (size_t_add i second) 1) S)
          (make_integer_sequence (size_t_sub (tuple_size_v S) (size_t_add second 1)))
        = some (S.drop (second + 1)) := by
  have hf1 : size_t_add first 1 = first + 1 := size_t_add_eq (by omega)
  have hs1 : size_t_add second 1 = second + 1 := size_t_add_eq (by omega)
  have hn1 : size_t_sub second (size_t_add first 1) = second - (first + 1) := by
    rw [hf1]; exact size_t_sub_eq (by omega) (by omega)
  have hn2 : size_t_sub (tuple_size_v S) (size_t_add second 1) = S.length - (second + 1) := by
    rw [hs1]; exact size_t_sub_eq (by simpa [tuple_size_v] using h2) hS
  rw [hn1, hn2]
  refine ⟨?_, ?_, ?_⟩
  · have h := pack_expansion_run S (fun i => i) 0 first (fun i _ => by simp) (by omega)
    simpa using h
  · exact pack_expansion_run S (fun i => size_t_add (size_t_add i first) 1) (first + 1)
      (second - (first + 1))
      (fun i hi => by
        show size_t_add (size_t_add i first) 1 = first + 1 + i
        rw [size_t_add_eq (a := i) (b := first) (by omega), size_t_add_eq (by omega)]
        omega)
      (by omega)
  · have h := pack_expansion_run S (fun i => size_t_add (size_t_add i second) 1) (second + 1)
      (S.length - (second + 1))
      (fun i hi => by
        show size_t_add (size_t_add i second) 1 = second + 1 + i
        rw [size_t_add_eq (a := i) (b := second) (by omega), size_t_add_eq (by omega)]
        omega)
      (by omega)
    rwa [List.take_of_length_le (by simp)] at h

/-- Within its guard `swap_elements` is the `std::tuple_cat` of the five
value-initialised parts of `S`. -/
theorem swap_elements_eq [ElementTraits α] (S : List α) (first second : Nat) (a b : α)
    (hS : S.length < SIZE_MOD) (h1 : first < second) (h2 : second < S.length)
    (ha : S[first]? = some a) (hb : S[second]? = some b) :
    swap_elements S first second =
      match value_initialize (S.take first), value_initialize [b],
            value_initialize ((S.drop (first + 1)).take (second - (first + 1))),
            value_initialize [a], value_initialize (S.drop (second + 1)) with
      | some r0, some sb, some r1, some sa, some r2 => tuple_cat [r0, sb, r1, sa, r2]
      | _, _, _, _, _ => none := by
  have hv : valid_swap_indices S first second = true := by
    simp [valid_swap_indices, tuple_size_v, h1, h2]
  obtain ⟨hr0, hr1, hr2⟩ := swap_lookups S first second hS h1 h2
  have ha2 : tuple_element_t first S = some a := ha
  have hb2 : tuple_element_t second S = some b := hb
  unfold swap_elements swap_helper_boilerplate swap_helper
  simp only [hv, if_true, hr0, hr1, hr2, ha2, hb2, Option.some_bind]

/-- With default-constructible and move-constructible elements a well-indexed swap is
the tuple with position `first` overwritten by the old element at `second` and
position `second` by the old element at `first`. -/
theorem swap_elements_eq_set [ElementTraits α] (S : List α) (first second : Nat) (a b : α)
    (hS : S.length < SIZE_MOD) (h1 : first < second) (h2 : second < S.length)
    (ha : S[first]? = some a) (hb : S[second]? = some b)
    (hdc : ∀ x ∈ S, ElementTraits.is_default_constructible x = true)
    (hmc : ∀ x ∈ S, ElementTraits.is_move_constructible x = true) :
    swap_elements S first second = some ((S.set first b).set second a) := by
  have hma : a ∈ S := List.getElem?_mem ha
  have hmb : b ∈ S := List.getElem?_mem hb
  have hmid : ∀ x ∈ (S.drop (first + 1)).take (second - (first + 1)), x ∈ S :=
    fun x hx => List.mem_of_mem_drop (List.mem_of_mem_take hx)
  rw [swap_elements_eq S first second a b hS h1 h2 ha hb,
    value_initialize_eq_some _ (fun x hx => hdc x (List.mem_of_mem_take hx)),
    value_initialize_eq_some [b] (fun x hx => by rw [List.mem_singleton.1 hx]; exact hdc b hmb),
    value_initialize_eq_some _ (fun x hx => hdc x (hmid x hx)),
    value_initialize_eq_some [a] (fun x hx => by rw [List.mem_singleton.1 hx]; exact hdc a hma),
    value_initialize_eq_some _ (fun x hx => hdc x (List.mem_of_mem_drop hx))]
  rw [← swap_runs_eq_set S first second a b h1 h2]
  simp only []
  rw [tuple_cat_eq_some_iff]
  refine ⟨by simp, ?_⟩
  intro x hx
  simp only [List.flatten_cons, List.flatten_nil, List.append_nil, List.mem_append,
    List.mem_singleton] at hx
  rcases hx with hx | hx | hx | hx | hx
  · exact hmc x (List.mem_of_mem_take hx)
  · rw [hx]; exact hmc b hmb
  · exact hmc x (hmid x hx)
  · rw [hx]; exact hmc a hma
  · exact hmc x (List.mem_of_mem_drop hx)

/-- The instantiation `swap_elements<S, first, second>` is well-formed exactly when
`first < second < length S` and every element of `S`, not only the two exchanged, can
be value-initialised and moved. -/
theorem swap_elements_isSome_iff [ElementTraits α] (S : List α) (first second : Nat)
    (hS : S.length < SIZE_MOD) :
    (∃ R, swap_elements S first second = some R) ↔
      first < second ∧ second < S.length ∧
        (∀ x ∈ S, ElementTraits.is_default_constructible x = true) ∧
        (∀ x ∈ S, ElementTraits.is_move_constructible x = true) := by
  constructor
  · rintro ⟨R, hR⟩
    by_cases hv : first < second ∧ second < S.length
    · obtain ⟨h1, h2⟩ := hv
      have hf : first < S.length := by omega
      have hmem : ∀ x ∈ S, x ∈ S.take first ∨ x = S[second] ∨
          x ∈ (S.drop (first + 1)).take (second - (first + 1)) ∨ x = S[first] ∨
          x ∈ S.drop (second + 1) := by
        intro x hx
        have hrev := swap_runs_eq_set S first second S[first] S[second] h1 h2
        have hperm : x ∈ (S.set first S[second]).set second S[first] := by
          have hx2 := hx
          rw [← runs_eq_self S first second hf h1 h2] at hx2
          rw [← hrev]
          simp only [List.mem_append, List.mem_singleton] at hx2 ⊢
          tauto
        rw [← hrev] at hperm
        simp only [List.mem_append, List.mem_singleton] at hperm
        tauto
      rw [swap_elements_eq S first second S[first] S[second] hS h1 h2
        (List.getElem?_eq_getElem hf) (List.getElem?_eq_getElem h2)] at hR
      split at hR
      · rename_i r0 sb r1 sa r2 e0 eb e1 ea e2
        obtain ⟨q0, d0⟩ := (value_initialize_eq_some_iff _ _).1 e0
        obtain ⟨qb, db⟩ := (value_initialize_eq_some_iff _ _).1 eb
        obtain ⟨q1, d1⟩ := (value_initialize_eq_some_iff _ _).1 e1
        obtain ⟨qa, da⟩ := (value_initialize_eq_some_iff _ _).1 ea
        obtain ⟨q2, d2⟩ := (value_initialize_eq_some_iff _ _).1 e2
        obtain ⟨_, hm⟩ := (tuple_cat_eq_some_iff _ _).1 hR
        subst q0 qb q1 qa q2
        refine ⟨h1, h2, ?_, ?_⟩
        · intro x hx
          rcases hmem x hx with h | h | h | h | h
          · exact d0 x h
          · exact db x (by simp [h])
          · exact d1 x h
          · exact da x (by simp [h])
          · exact d2 x h
        · intro x hx
          apply hm
          simp only [List.flatten_cons, List.flatten_nil, List.append_nil, List.mem_append,
            List.mem_singleton]
          rcases hmem x hx with h | h | h | h | h <;> tauto
      · exact Option.noConfusion hR
    · rw [swap_elements_eq_none_of_invalid S first second hv] at hR
      exact Option.noConfusion hR
  · rintro ⟨h1, h2, hdc, hmc⟩
    have hf : first < S.length := by omega
    exact ⟨_, swap_elements_eq_set S first second _ _ hS h1 h2
      (List.getElem?_eq_getElem hf) (List.getElem?_eq_getElem h2) hdc hmc⟩

/-! ## Claims -/

/-- C5: for every type sequence `S` and element type `E`, `count S E` is well-formed
and equals the number of positions `i` in `[0, length S)` whose element equals `E`;
for the empty sequence it is 0 for every `E`. -/
theorem count_positions [DecidableEq α] (S : List α) (E : α) :
    count S E
        = some ((List.range S.length).filter (fun i => decide (S[i]? = some E))).length ∧
      count ([] : List α) E = some 0 :=
  ⟨count_eq S E, rfl⟩

/-- C6: for every type sequence `S` and element types `E1..Ek` (`k ≥ 0` a
`std::size_t` value, duplicates allowed, any order), `contains_all S [E1..Ek]` is
well-formed and is true iff `contains S Ei` is true for every `i`; so its value is the
same for any two lists `Es`, `Es2` with the same members, in particular for
permutations and for lists with duplicates added. -/
theorem contains_all_iff_forall_contains [DecidableEq α] (S Es : List α)
    (hEs : Es.length < SIZE_MOD) :
    (∃ b, contains_all S Es = some b) ∧
      (contains_all S Es = some true ↔ ∀ E ∈ Es, contains S E = some true) ∧
      (∀ Es2 : List α, Es2.length < SIZE_MOD → (∀ E, E ∈ Es2 ↔ E ∈ Es) →
        contains_all S Es2 = contains_all S Es) := by
  refine ⟨⟨_, contains_all_eq S Es hEs⟩, ?_, ?_⟩
  · rw [contains_all_eq S Es hEs]
    simp [contains_eq]
  · intro Es2 hEs2 hmem
    rw [contains_all_eq S Es hEs, contains_all_eq S Es2 hEs2]
    simp only [Option.some.injEq, decide_eq_decide]
    exact ⟨fun h E hE => h E ((hmem E).2 hE), fun h E hE => h E ((hmem E).1 hE)⟩

theorem contains_all_iff_forall_contains_witness :
    [7, 8].length < SIZE_MOD ∧
      ((∃ b, contains_all [7, 8, 9] [7, 8] = some b) ∧
        (contains_all [7, 8, 9] [7, 8] = some true ↔
          ∀ E ∈ [7, 8], contains [7, 8, 9] E = some true) ∧
        (∀ Es2 : List Nat, Es2.length < SIZE_MOD → (∀ E, E ∈ Es2 ↔ E ∈ [7, 8]) →
          contains_all [7, 8, 9] Es2 = contains_all [7, 8, 9] [7, 8])) :=
  ⟨by decide, contains_all_iff_forall_contains [7, 8, 9] [7, 8] (by decide)⟩

/-- C7: for every type sequence `S` and unary type predicate `F` that every element of
`S` satisfies, `for_each S F` is well-formed, has the length of `S`, and at every
position `i < length S` holds `F` applied to the element of `S` at position `i`. -/
theorem for_each_positions (S : List α) (F : α → Option β)
    (hF : ∀ x ∈ S, unary_type_predicate F x = true) :
    ∃ R, for_each S F = some R ∧ R.length = S.length ∧
      ∀ i, i < S.length → ∃ x y, S[i]? = some x ∧ F x = some y ∧ R[i]? = some y := by
  obtain ⟨R, hR⟩ := pack_expansion_isSome F S hF
  refine ⟨R, by rw [for_each_eq_pack_expansion, hR], pack_expansion_length hR, ?_⟩
  intro i hi
  have hget : S[i]? = some S[i] := List.getElem?_eq_getElem hi
  obtain ⟨y, hy⟩ := Option.isSome_iff_exists.1 (hF S[i] (List.getElem_mem hi))
  refine ⟨S[i], y, hget, hy, ?_⟩
  rw [pack_expansion_getElem? hR i, hget]
  simpa using hy

theorem for_each_positions_witness :
    (∀ x ∈ [1, 2, 3], unary_type_predicate (fun n : Nat => some (n + 10)) x = true) ∧
      ∃ R, for_each [1, 2, 3] (fun n : Nat => some (n + 10)) = some R ∧
        R.length = [1, 2, 3].length ∧
        ∀ i, i < [1, 2, 3].length →
          ∃ x y, [1, 2, 3][i]? = some x ∧ (fun n : Nat => some (n + 10)) x = some y ∧
            R[i]? = some y :=
  ⟨by decide, for_each_positions [1, 2, 3] (fun n : Nat => some (n + 10)) (by decide)⟩

/-- C8: for all type sequences `A` and `B`, `concat A B` is the elements of `A` in
order followed by the elements of `B` in order, and its length is
`length A + length B`. -/
theorem concat_positions (A B : List α) :
    (concat A B).length = A.length + B.length ∧
      (∀ i, i < A.length → (concat A B)[i]? = A[i]?) ∧
      (∀ j, (concat A B)[A.length + j]? = B[j]?) := by
  refine ⟨by simp [concat], ?_, ?_⟩
  · intro i hi
    simp [concat, List.getElem?_append_left hi]
  · intro j
    simp [concat, List.getElem?_append_right]

/-- C15: for every type sequence `S` and element type `E`, `start_with S E` is true iff
`S` is non-empty and the element at position 0 of `S` equals `E`; for the empty
sequence it is false for every `E`. -/
theorem start_with_iff [DecidableEq α] (S : List α) (E : α) :
    (start_with S E = true ↔ S ≠ [] ∧ S[0]? = some E) ∧
      start_with ([] : List α) E = false := by
  refine ⟨?_, rfl⟩
  cases S <;> simp [start_with]

/-- C16: `concat` is associative: for all type sequences `A`, `B` and `C`,
`concat (concat A B) C = concat A (concat B C)`. -/
theorem concat_assoc (A B C : List α) :
    concat (concat A B) C = concat A (concat B C) := by
  simp [concat]

/-- C18: for every type sequence `S` and element type `E`, `contains S E` is
well-formed and is true iff `count S E` is positive, that is iff some position of `S`
holds `E`; for the empty sequence it is false. -/
theorem contains_iff_count_pos [DecidableEq α] (S : List α) (E : α) :
    (∃ b, contains S E = some b) ∧
      (contains S E = some true ↔ ∃ c, count S E = some c ∧ 0 < c) ∧
      (contains S E = some true ↔ ∃ i, i < S.length ∧ S[i]? = some E) ∧
      contains ([] : List α) E = some false := by
  refine ⟨⟨_, contains_eq S E⟩, ?_, ?_, rfl⟩
  · unfold contains
    cases count S E <;> simp
  · rw [contains_eq]
    simp only [Option.some.injEq, decide_eq_true_eq, List.mem_iff_getElem?]
    constructor
    · rintro ⟨i, hi⟩
      exact ⟨i, (List.getElem?_eq_some_iff.1 hi).1, hi⟩
    · rintro ⟨i, _, hi⟩
      exact ⟨i, hi⟩

/-- C12: `for_each` is all-or-nothing: for every type sequence `S` and candidate `F`,
`for_each S F` produces a result iff the element at every position of `S` satisfies
`unary_type_predicate` for `F`; if an element at any position fails the check there is
no result at all; for the empty sequence the result is the empty sequence. -/
theorem for_each_all_or_nothing (S : List α) (F : α → Option β) :
    ((∃ R, for_each S F = some R) ↔
        ∀ (i : Nat) (x : α), S[i]? = some x → unary_type_predicate F x = true) ∧
      ((∃ (i : Nat) (x : α), S[i]? = some x ∧ unary_type_predicate F x = false) →
        for_each S F = none) ∧
      for_each ([] : List α) F = some [] := by
  have hiff : (∃ R, for_each S F = some R) ↔
      ∀ (i : Nat) (x : α), S[i]? = some x → unary_type_predicate F x = true := by
    rw [for_each_eq_pack_expansion]
    constructor
    · rintro ⟨R, hR⟩ i x hx
      exact pack_expansion_some_forall hR x (List.getElem?_mem hx)
    · intro h
      apply pack_expansion_isSome
      intro x hx
      obtain ⟨i, hi⟩ := List.mem_iff_getElem?.1 hx
      exact h i x hi
  refine ⟨hiff, ?_, rfl⟩
  rintro ⟨i, x, hx, hfalse⟩
  cases hfe : for_each S F with
  | none => rfl
  | some R =>
    have htrue := hiff.1 ⟨R, hfe⟩ i x hx
    rw [hfalse] at htrue
    exact absurd htrue (by decide)

/-- C20: `count` is additive over `concat`: for all type sequences `A` and `B` and every
element type `E`, the three counts are well-formed and
`count (concat A B) E = count A E + count B E`; hence `contains (concat A B) E` is true
iff `contains A E` or `contains B E` is. -/
theorem count_concat [DecidableEq α] (A B : List α) (E : α) :
    (∃ a b, count A E = some a ∧ count B E = some b ∧
        count (concat A B) E = some (a + b)) ∧
      (contains (concat A B) E = some true ↔
        contains A E = some true ∨ contains B E = some true) := by
  constructor
  · refine ⟨A.count E, B.count E, count_eq_list_count A E, count_eq_list_count B E, ?_⟩
    rw [count_eq_list_count, concat, List.count_append]
  · simp [contains_eq, concat]

/-! ## Claims that the value construction in `split` and `swap_elements` breaks

`split::impl` value-initialises the tuple it returns and `swap_helper` calls
`std::tuple_cat` on value-initialised tuples, although only the types of these
expressions are used.  An element type that cannot be value-initialised (or moved)
therefore makes the instantiation ill-formed inside the guard of the template. -/

/-- C1: the claim says that for every type sequence and every valid split index the two
halves of the split concatenate to the sequence.  The code departs from it:
`split<std::tuple<int&>, 0>` passes the guard `0 ≤ 1` and is ill-formed, so there are no
halves to concatenate; for `std::tuple<E1, E2>` at index 1 the round trip holds. -/
theorem split_then_concat_int_ref :
    0 ≤ [SampleType.int_ref].length ∧
      split [SampleType.int_ref] 0 = none ∧
      (¬ ∃ left right, split [SampleType.int_ref] 0 = some (left, right) ∧
        concat left right = [SampleType.int_ref]) ∧
      (∃ left right, split [SampleType.E1, SampleType.E2] 1 = some (left, right) ∧
        concat left right = [SampleType.E1, SampleType.E2]) := by
  have hnone : split [SampleType.int_ref] 0 = none := by decide
  refine ⟨by decide, hnone, ?_, ⟨[SampleType.E1], [SampleType.E2], by decide, by decide⟩⟩
  rintro ⟨l, r, h, _⟩
  rw [hnone] at h
  exact Option.noConfusion h

/-- C2: the claim says that for every type sequence and `k ≤ length` the left half of the
split holds positions `[0, k)` and the right half positions `[k, length)`.  The code
departs from it: `split<std::tuple<NoDefault, E1>, 1>` passes the guard and is
ill-formed, so neither half exists, not even the right half `std::tuple<E1>`; for
`std::tuple<E2, E1>` the halves are `(E2)` and `(E1)`. -/
theorem split_positions_no_default :
    1 ≤ [SampleType.NoDefault, SampleType.E1].length ∧
      split [SampleType.NoDefault, SampleType.E1] 1 = none ∧
      split_l_t [SampleType.NoDefault, SampleType.E1] 1 = none ∧
      split_r_t [SampleType.NoDefault, SampleType.E1] 1 = none ∧
      split [SampleType.E2, SampleType.E1] 1 = some ([SampleType.E2], [SampleType.E1]) := by
  refine ⟨by decide, by decide, by decide, by decide, by decide⟩

/-- C3: the claim says that for every type sequence and indices
`first < second < length` the swap exchanges the two positions and keeps the others.
The code departs from it: `swap_elements_t<std::tuple<NoMove, E1>, 0, 1>` has valid
indices and is ill-formed, so there is no result holding `E1` at position 0; for
`std::tuple<E2, E1>` the result is `(E1, E2)`. -/
theorem swap_elements_positions_no_move :
    valid_swap_indices [SampleType.NoMove, SampleType.E1] 0 1 = true ∧
      swap_elements [SampleType.NoMove, SampleType.E1] 0 1 = none ∧
      (¬ ∃ R, swap_elements [SampleType.NoMove, SampleType.E1] 0 1 = some R ∧
        R[0]? = [SampleType.NoMove, SampleType.E1][1]?) ∧
      swap_elements [SampleType.E2, SampleType.E1] 0 1
        = some [SampleType.E1, SampleType.E2] := by
  have hnone : swap_elements [SampleType.NoMove, SampleType.E1] 0 1 = none := by decide
  refine ⟨by decide, hnone, ?_, by decide⟩
  rintro ⟨R, h, _⟩
  rw [hnone] at h
  exact Option.noConfusion h

/-- C4: the claim says that swapping the same two valid indices twice gives back the
sequence.  The code departs from it:
`swap_elements_t<std::tuple<E1, E2, NoDefault>, 0, 1>` has valid indices and is
ill-formed although the element that cannot be value-initialised is not one of the two
exchanged, so there is no first swap to repeat; for `std::tuple<E1, E2, E3>` the double
swap gives back the sequence. -/
theorem swap_elements_involution_no_default :
    valid_swap_indices [SampleType.E1, SampleType.E2, SampleType.NoDefault] 0 1 = true ∧
      swap_elements [SampleType.E1, SampleType.E2, SampleType.NoDefault] 0 1 = none ∧
      (¬ ∃ R, swap_elements [SampleType.E1, SampleType.E2, SampleType.NoDefault] 0 1
            = some R ∧
          swap_elements R 0 1
            = some [SampleType.E1, SampleType.E2, SampleType.NoDefault]) ∧
      (∃ R, swap_elements [SampleType.E1, SampleType.E2, SampleType.E3] 0 1 = some R ∧
        swap_elements R 0 1 = some [SampleType.E1, SampleType.E2, SampleType.E3]) := by
  have hnone :
      swap_elements [SampleType.E1, SampleType.E2, SampleType.NoDefault] 0 1 = none := by
    decide
  refine ⟨by decide, hnone, ?_,
    ⟨[SampleType.E2, SampleType.E1, SampleType.E3], by decide, by decide⟩⟩
  rintro ⟨R, h, _⟩
  rw [hnone] at h
  exact Option.noConfusion h

/-- C9: the claim says that `split (concat A B) (length A)` is defined and equals
`(A, B)` for all type sequences.  The code departs from it: with `A = std::tuple<int&>`
and `B = std::tuple<>` the split of the concatenation at index 1 is ill-formed; with
`A = std::tuple<E1>` and `B = std::tuple<E2, E3>` it is `(A, B)`. -/
theorem split_concat_inverse_int_ref :
    split (concat [SampleType.int_ref] []) (tuple_size_v [SampleType.int_ref]) = none ∧
      split (concat [SampleType.int_ref] []) (tuple_size_v [SampleType.int_ref])
        ≠ some ([SampleType.int_ref], []) ∧
      split (concat [SampleType.E1] [SampleType.E2, SampleType.E3])
          (tuple_size_v [SampleType.E1])
        = some ([SampleType.E1], [SampleType.E2, SampleType.E3]) := by
  refine ⟨by decide, by decide, by decide⟩

/-- C10: the claim says that `count S E` is the number of indices `i < length S` at
which `start_with` of the right half of `split S i` and `E` is true.  The code departs
from it: for `S = std::tuple<int&, E1>` and `E = E1` the count is 1, while `split<S, 0>`
and `split<S, 1>` are both ill-formed, so no index passes the test; for
`S = std::tuple<E2, E1>` both numbers are 1. -/
theorem count_eq_start_with_split_int_ref :
    count [SampleType.int_ref, SampleType.E1] SampleType.E1 = some 1 ∧
      split [SampleType.int_ref, SampleType.E1] 0 = none ∧
      split [SampleType.int_ref, SampleType.E1] 1 = none ∧
      ((List.range [SampleType.int_ref, SampleType.E1].length).filter (fun i =>
          decide ((split [SampleType.int_ref, SampleType.E1] i).map
            (fun lr => start_with lr.2 SampleType.E1) = some true))).length = 0 ∧
      count [SampleType.E2, SampleType.E1] SampleType.E1 = some 1 ∧
      ((List.range [SampleType.E2, SampleType.E1].length).filter (fun i =>
          decide ((split [SampleType.E2, SampleType.E1] i).map
            (fun lr => start_with lr.2 SampleType.E1) = some true))).length = 1 := by
  refine ⟨by decide, by decide, by decide, by decide, by decide, by decide⟩

/-- C11: the claim says that for every type sequence and valid indices the swap is a
permutation of the sequence with the same `count` of every element type.  The code
departs from it: `swap_elements_t<std::tuple<E1, NoMove, E2>, 0, 2>` has valid indices
and is ill-formed although `NoMove` is not one of the two exchanged, so there is no
result to be a permutation; for `std::tuple<E1, E3, E2>` the result `(E2, E3, E1)` is
one. -/
theorem swap_elements_perm_no_move :
    valid_swap_indices [SampleType.E1, SampleType.NoMove, SampleType.E2] 0 2 = true ∧
      swap_elements [SampleType.E1, SampleType.NoMove, SampleType.E2] 0 2 = none ∧
      (¬ ∃ R, swap_elements [SampleType.E1, SampleType.NoMove, SampleType.E2] 0 2 = some R ∧
        R.Perm [SampleType.E1, SampleType.NoMove, SampleType.E2]) ∧
      (∃ R, swap_elements [SampleType.E1, SampleType.E3, SampleType.E2] 0 2 = some R ∧
        R.Perm [SampleType.E1, SampleType.E3, SampleType.E2]) := by
  have hnone :
      swap_elements [SampleType.E1, SampleType.NoMove, SampleType.E2] 0 2 = none := by
    decide
  refine ⟨by decide, hnone, ?_,
    ⟨[SampleType.E2, SampleType.E3, SampleType.E1], by decide, by decide⟩⟩
  rintro ⟨R, h, _⟩
  rw [hnone] at h
  exact Option.noConfusion h

/-- C13: the claim says that `swap_elements` is specified exactly when the argument is a
type sequence and `first < second < length`, whatever the element types, and that
`valid_swap_indices` is true in exactly those cases.  The code departs from the first
part: for `std::tuple<NoMove, E1>` with indices 0 and 1 the concept
`valid_swap_indices` is true and `swap_elements_t` is ill-formed; the same holds for
`std::tuple<E1, E2, NoDefault>`. -/
theorem swap_elements_specified_no_move :
    (0 < 1 ∧ 1 < [SampleType.NoMove, SampleType.E1].length) ∧
      concepts.valid_swap_indices (TypeArg.tuple [SampleType.NoMove, SampleType.E1]) 0 1
        = true ∧
      requires_tuple (TypeArg.tuple [SampleType.NoMove, SampleType.E1])
        (fun Ts => swap_elements Ts 0 1) = none ∧
      concepts.valid_swap_indices
        (TypeArg.tuple [SampleType.E1, SampleType.E2, SampleType.NoDefault]) 0 1 = true ∧
      requires_tuple (TypeArg.tuple [SampleType.E1, SampleType.E2, SampleType.NoDefault])
        (fun Ts => swap_elements Ts 0 1) = none := by
  refine ⟨by decide, by decide, by decide, by decide, by decide⟩

/-- C14: the claim says that `split` is specified exactly when the argument is a type
sequence and `0 ≤ k ≤ length`, whatever the element types, with both boundary indices
accepted.  The code departs from it: for `std::tuple<int&>` the guard accepts `k = 0`
and `k = 1` and `split` is ill-formed at both; for `std::tuple<E1>` both boundary
indices give the empty half the claim describes. -/
theorem split_specified_int_ref :
    (0 ≤ [SampleType.int_ref].length ∧ 1 ≤ [SampleType.int_ref].length) ∧
      requires_tuple (TypeArg.tuple [SampleType.int_ref]) (fun Ts => split Ts 0) = none ∧
      requires_tuple (TypeArg.tuple [SampleType.int_ref]) (fun Ts => split Ts 1) = none ∧
      requires_tuple (TypeArg.tuple [SampleType.E1]) (fun Ts => split Ts 0)
        = some ([], [SampleType.E1]) ∧
      requires_tuple (TypeArg.tuple [SampleType.E1]) (fun Ts => split Ts 1)
        = some ([SampleType.E1], []) := by
  refine ⟨by decide, by decide, by decide, by decide, by decide⟩

/-- C17: the claim says that for valid indices the swap equals the sequence if and only
if the two exchanged elements are equal.  The code departs from the right-to-left direction: in
`std::tuple<NoDefault, E2, NoDefault>` the elements at 0 and 2 are equal and
`swap_elements_t` is ill-formed, so it does not equal the sequence; for
`std::tuple<E1, E2, E1>` the swap is the sequence and for `std::tuple<E1, E2, E3>` it
is not. -/
theorem swap_elements_eq_self_no_default :
    [SampleType.NoDefault, SampleType.E2, SampleType.NoDefault][0]?
        = [SampleType.NoDefault, SampleType.E2, SampleType.NoDefault][2]? ∧
      valid_swap_indices [SampleType.NoDefault, SampleType.E2, SampleType.NoDefault] 0 2
        = true ∧
      swap_elements [SampleType.NoDefault, SampleType.E2, SampleType.NoDefault] 0 2
        ≠ some [SampleType.NoDefault, SampleType.E2, SampleType.NoDefault] ∧
      swap_elements [SampleType.E1, SampleType.E2, SampleType.E1] 0 2
        = some [SampleType.E1, SampleType.E2, SampleType.E1] ∧
      swap_elements [SampleType.E1, SampleType.E2, SampleType.E3] 0 2
        ≠ some [SampleType.E1, SampleType.E2, SampleType.E3] := by
  refine ⟨by decide, by decide, by decide, by decide, by decide⟩

/-! ## Index arithmetic of `swap_elements` -/

end tl
